import Mathlib

/-!
Shallow embedding of `transcriber.py` (youtube-transcript-only): the
filename sanitizer, the VTT → plain-text normalizer, and the two
orchestrators (`get_youtube_transcript_text`, `extract_audio_from_video`)
with their external collaborators (media engine, file system) modelled as
explicit environment records.  Strings are Lean `String` (a wrapper around
`List Char`); Python's whitespace / line-break character classes are
modelled over the Latin-1 range plus the Unicode line/paragraph
separators, which covers every character the program's own constants and
formats use.
-/

set_option autoImplicit false

namespace Transcriber

/-- Characters Python's `str.strip()` removes (modelled set: ASCII
whitespace, the C0 separators, NEL, NBSP and the Unicode line/paragraph
separators). -/
def isPySpace (c : Char) : Bool :=
  c = ' ' || c = '\t' || c = '\n' || c = '\x0b' || c = '\x0c' || c = '\r' ||
  c = '\x1c' || c = '\x1d' || c = '\x1e' || c = '\x1f' || c = '\x85' ||
  c = '\xa0' || c = ' ' || c = ' '

/-- Single-character line terminators of Python's `str.splitlines`
(besides the two-character `\r\n`). -/
def isLineTerm (c : Char) : Bool :=
  c = '\n' || c = '\r' || c = '\x0b' || c = '\x0c' ||
  c = '\x1c' || c = '\x1d' || c = '\x1e' || c = '\x85' ||
  c = ' ' || c = ' '

/-- `str.strip()`: drop the leading and trailing whitespace run. -/
def pyStrip (l : List Char) : List Char :=
  ((l.dropWhile isPySpace).reverse.dropWhile isPySpace).reverse

/-- Worker for `splitLines`: `acc` holds the current (reversed) line. -/
def splitLinesAux : List Char → List Char → List (List Char)
  | [], acc => if acc.isEmpty then [] else [acc.reverse]
  | '\r' :: '\n' :: rest, acc => acc.reverse :: splitLinesAux rest []
  | c :: rest, acc =>
      if isLineTerm c then acc.reverse :: splitLinesAux rest []
      else splitLinesAux rest (c :: acc)

/-- `str.splitlines()`: split at line terminators, no trailing empty
line for a terminal terminator. -/
def splitLines (l : List Char) : List (List Char) :=
  splitLinesAux l []

/-- `"\n".join(...)` over lines kept as `List Char`. -/
def joinNL (ls : List (List Char)) : List Char :=
  List.intercalate ['\n'] ls

/-- `sanitize_filename` (transcriber.py lines 41-48): replace spaces by
underscores, keep only alphanumerics / `-` / `_` (others become `_`),
collapse underscore runs, strip outer underscores, truncate.  The
`collapseUnderscores` pass is `re.sub(r'_+', '_', s)`. -/
def collapseUnderscores : List Char → List Char
  | [] => []
  | c :: rest =>
      match rest with
      | [] => [c]
      | d :: _ =>
          if c = '_' && d = '_' then collapseUnderscores rest
          else c :: collapseUnderscores rest

/-- `str.strip('_')`. -/
def stripUnderscores (l : List Char) : List Char :=
  ((l.dropWhile (· = '_')).reverse.dropWhile (· = '_')).reverse

def sanitize_filename (s : String) (max_length : Nat) : String :=
  String.mk ((stripUnderscores (collapseUnderscores
    ((s.data.map (fun c => if c = ' ' then '_' else c)).map
      (fun c => if c.isAlphanum || c = '-' || c = '_' then c else '_')))).take max_length)

/-- Modelled from the spec (§4.1): the sanitizer pipeline as the spec
words it — "replaces whitespace with underscore, replaces every character
that is not alphanumeric, `-`, or `_` with underscore, collapses runs of
underscores to one, strips leading/trailing underscores, truncates to
`max_length`".  Used only to compare against `sanitize_filename`. -/
def sanitize_spec (s : String) (max_length : Nat) : String :=
  String.mk ((stripUnderscores (collapseUnderscores
    ((s.data.map (fun c => if isPySpace c then '_' else c)).map
      (fun c => if c.isAlphanum || c = '-' || c = '_' then c else '_')))).take max_length)

/-- The one effective entity replacement on line 67 of transcriber.py:
`.replace('\xa0', ' ')` (the other three `.replace` calls there map a
character to itself and are identities). -/
def mapNbsp (l : List Char) : List Char :=
  l.map (fun c => if c = '\xa0' then ' ' else c)

/-- Worker for `removeTags`, a left-to-right scan equivalent to
`re.sub(r'<[^>]+>', '', s)`: `pending = some buf` means we are inside a
candidate tag opened by `<`, with `buf` the (reversed) characters seen
since then. -/
def removeTagsAux : List Char → Option (List Char) → List Char
  | [], none => []
  | [], some buf => '<' :: buf.reverse
  | c :: rest, none =>
      if c = '<' then removeTagsAux rest (some [])
      else c :: removeTagsAux rest none
  | c :: rest, some buf =>
      if c = '>' then
        if buf.isEmpty then '<' :: '>' :: removeTagsAux rest none
        else removeTagsAux rest none
      else removeTagsAux rest (some (c :: buf))

/-- `re.sub(r'<[^>]+>', '', s)` (transcriber.py line 65). -/
def removeTags (l : List Char) : List Char :=
  removeTagsAux l none

/-- Does the list begin with the three characters `-->`? -/
def startsArrow : List Char → Bool
  | a :: b :: c :: _ => a = '-' && b = '-' && c = '>'
  | _ => false

/-- Python's `"-->" in s`. -/
def hasArrow : List Char → Bool
  | [] => false
  | c :: rest => startsArrow (c :: rest) || hasArrow rest

/-- The header literal `WEBVTT` as characters. -/
def webvttChars : List Char := ['W', 'E', 'B', 'V', 'T', 'T']

/-- First pass of `vtt_to_plaintext` (lines 54-68): per input line,
strip it; skip the header, time-range lines and bare cue indices; drop
blank lines; clean tags and the NBSP entity from the rest. -/
def processedLines (rawLines : List (List Char)) : List (List Char) :=
  rawLines.filterMap (fun line =>
    let st := pyStrip line
    if st = webvttChars then none
    else if hasArrow st then none
    else if !st.isEmpty && st.all Char.isDigit && !st.any Char.isAlpha then none
    else if st.isEmpty then none
    else some (mapNbsp (removeTags st)))

/-- Second pass of `vtt_to_plaintext` (lines 74-83): collapse
consecutive duplicates, comparing on stripped content; a line that is
blank after cleaning is kept when some line has been kept since the last
reset, and resets the memory. -/
def dedupAux : Option (List Char) → List (List Char) → List (List Char)
  | _, [] => []
  | last, l :: rest =>
      let st := pyStrip l
      if !st.isEmpty && some st ≠ last then l :: dedupAux (some st) rest
      else if st.isEmpty && last ≠ none then l :: dedupAux none rest
      else dedupAux last rest

/-- The normalizer's output, as a list of lines. -/
def normalizeLines (s : String) : List (List Char) :=
  dedupAux none (processedLines (splitLines s.data))

/-- `vtt_to_plaintext` (transcriber.py lines 50-85); the
`if ... isEmpty` mirrors the early `return ""` on line 70-71. -/
def vtt_to_plaintext (s : String) : String :=
  if (processedLines (splitLines s.data)).isEmpty then ""
  else String.mk (joinNL (dedupAux none (processedLines (splitLines s.data))))

/-- A line in canonical normalized form: non-blank, already stripped,
not the header / a time-range / a bare cue index, unchanged by tag
cleaning, free of the NBSP entity and of line terminators.  Used to
state on which strings the normalizer acts as the identity. -/
def normalLine (l : List Char) : Bool :=
  !l.isEmpty && (pyStrip l == l) && !(l == webvttChars) && !hasArrow l &&
  !(l.all Char.isDigit && !l.any Char.isAlpha) && (removeTags l == l) &&
  l.all (fun c => !isLineTerm c && c ≠ '\xa0')

/-! ### Transcript acquisition orchestrator (lines 166-252)

The external media engine and the file system are modelled explicitly: a
call's environment fixes which subtitle files the engine writes into the
temp directory, whether it raises, the `requested_subtitles` mapping of
its structured result, and whether reading the located file raises.
Disk state is the list of temp files present; `os.remove` is removal
from that list. -/

/-- The engine's structured result: `requested_subtitles`, a mapping
language code ↦ optional `filepath` (Python: missing key, or entry
without a `filepath`). `none` models an absent / falsy mapping. -/
structure TranscriptEnv where
  tempDir : String
  baseName : String
  engineFiles : List String
  engineRaises : Bool
  requested_subtitles : Option (List (String × Option String))
  readRaises : Bool
  fileContent : String

/-- `os.path.join(temp_vtt_dir, f"\x7bbasename\x7d.\x7blang\x7d.vtt")` (line 219). -/
def vttPath (dir base lang : String) : String :=
  dir ++ "/" ++ base ++ "." ++ lang ++ ".vtt"

/-- Lines 203-211: scan `requested_subtitles` for `'en'` then `'ro'`,
accepting a language whose entry carries a `filepath` that exists. -/
def structuredScan (rs : List (String × Option String)) (disk : List String) :
    Option (String × String) :=
  ["en", "ro"].findSome? (fun lang =>
    match rs.lookup lang with
    | some (some fp) => if disk.contains fp then some (fp, lang) else none
    | _ => none)

/-- Lines 215-224: fall back to probing the expected path pattern, for
`'ro'` then `'en'` (this order is what the code writes). -/
def fallbackScan (disk : List String) (dir base : String) :
    Option (String × String) :=
  ["ro", "en"].findSome? (fun lang =>
    let p := vttPath dir base lang
    if disk.contains p then some (p, lang) else none)

/-- Lines 198-224 combined: locate the downloaded VTT file and its
language. -/
def locateTranscript (env : TranscriptEnv) : Option (String × String) :=
  let viaStructured :=
    match env.requested_subtitles with
    | some rs => structuredScan rs env.engineFiles
    | none => none
  match viaStructured with
  | some r => some r
  | none => fallbackScan env.engineFiles env.tempDir env.baseName

structure TranscriptResult where
  transcript_text : Option String
  language_detected : Option String
  error : Option String

/-- `get_youtube_transcript_text` (lines 166-252): returns the result
record together with the final temp-directory contents after the
`finally` block.  The `finally` deletes `downloaded_vtt_path` when that
variable was set — i.e. exactly the located file, and nothing when the
engine raised or no file was located. -/
def get_youtube_transcript_text (env : TranscriptEnv) :
    TranscriptResult × List String :=
  if env.engineRaises then
    (⟨none, none, some "yt-dlp DownloadError"⟩, env.engineFiles)
  else
    match locateTranscript env with
    | none =>
        (⟨none, none,
          some "Transcript VTT file not found after download attempt or not available in RO/EN."⟩,
         env.engineFiles)
    | some (p, lang) =>
        let finalDisk := env.engineFiles.filter (fun f => f ≠ p)
        if env.readRaises then
          (⟨none, none, some "Unexpected error during transcript processing"⟩, finalDisk)
        else
          (⟨some (vtt_to_plaintext env.fileContent), some lang, none⟩, finalDisk)

/-! ### Audio extraction orchestrator (lines 101-164) -/

structure AudioEnv where
  ffmpegAvailable : Bool
  infoRaises : Bool
  title : String
  timestampStr : String
  downloadRaises : Bool
  downloadErrorCode : Int
  diskAfterDownload : List String

structure AudioResult where
  audio_server_path : Option String
  audio_relative_path : Option String
  error : Option String

/-- The downloads root (`DOWNLOADS_BASE_DIR`); the absolute prefix is
immaterial to the claims and kept abstract as this constant. -/
def DOWNLOADS_BASE_DIR : String := "api_downloads"

/-- Line 122: `f"\x7bcurrent_time_str\x7d_\x7bsanitized_title_part\x7d"`. -/
def audioBase (env : AudioEnv) : String :=
  env.timestampStr ++ "_" ++ sanitize_filename env.title 60

/-- Lines 150-151: the expected output file
`\x7bdirectory\x7d/\x7bbase_name\x7d.\x7bformat\x7d`. -/
def expectedAudioPath (env : AudioEnv) (fmt : String) : String :=
  DOWNLOADS_BASE_DIR ++ "/" ++ audioBase env ++ "/" ++ audioBase env ++ "." ++ fmt

/-- `extract_audio_from_video` (lines 101-164). -/
def extract_audio_from_video (env : AudioEnv) (audio_format : String) : AudioResult :=
  if !env.ffmpegAvailable then
    ⟨none, none, some "FFmpeg is not installed or not found. It is required for audio conversion."⟩
  else if env.infoRaises then
    ⟨none, none, some "Unexpected error during audio extraction"⟩
  else if env.downloadRaises then
    ⟨none, none, some "Unexpected error during audio extraction"⟩
  else if env.downloadErrorCode ≠ 0 then
    ⟨none, none, some "yt-dlp audio process failed"⟩
  else if env.diskAfterDownload.contains (expectedAudioPath env audio_format) then
    ⟨some (expectedAudioPath env audio_format),
     some (audioBase env ++ "/" ++ audioBase env ++ "." ++ audio_format), none⟩
  else
    ⟨none, none, some "Audio file not found post-processing"⟩

/-! ## Generic helper lemmas -/

theorem mem_dropWhile_of_mem {α : Type} {p : α → Bool} {c : α} :
    ∀ {l : List α}, c ∈ l → p c = false → c ∈ l.dropWhile p := by
  intro l
  induction l with
  | nil => intro h; exact absurd h (List.not_mem_nil c)
  | cons a t ih =>
      intro hmem hp
      by_cases ha : p a = true
      · rw [List.dropWhile_cons_of_pos ha]
        rcases List.mem_cons.mp hmem with rfl | ht
        · rw [hp] at ha; exact absurd ha (by simp)
        · exact ih ht hp
      · rw [List.dropWhile_cons_of_neg ha]
        exact hmem

theorem filterMap_eq_self_of {α : Type} {f : α → Option α} :
    ∀ {l : List α}, (∀ a ∈ l, f a = some a) → List.filterMap f l = l := by
  intro l
  induction l with
  | nil => intro _; rfl
  | cons a t ih =>
      intro h
      rw [List.filterMap_cons, h a (List.mem_cons_self a t),
        ih (fun b hb => h b (List.mem_cons_of_mem a hb))]

/-! ## Sanitizer lemmas -/

theorem sanitizeChar_eq (c : Char) :
    (if (if c = ' ' then '_' else c).isAlphanum || (if c = ' ' then '_' else c) = '-' ||
        (if c = ' ' then '_' else c) = '_' then (if c = ' ' then '_' else c) else '_') =
    (if (if isPySpace c then '_' else c).isAlphanum || (if isPySpace c then '_' else c) = '-' ||
        (if isPySpace c then '_' else c) = '_' then (if isPySpace c then '_' else c) else '_') := by
  by_cases hsp : c = ' '
  · subst hsp; decide
  · by_cases hps : isPySpace c = true
    · unfold isPySpace at hps
      simp only [Bool.or_eq_true, decide_eq_true_eq] at hps
      rcases hps with ((((((((((((h | h) | h) | h) | h) | h) | h) | h) | h) | h) | h) | h) | h) | h
      all_goals first
        | exact absurd h hsp
        | (subst h; decide)
    · rw [if_neg hsp, if_neg hps]

theorem mem_collapseUnderscores {c : Char} :
    ∀ {l : List Char}, c ∈ l → c ≠ '_' → c ∈ collapseUnderscores l := by
  intro l
  induction l with
  | nil => intro h _; exact absurd h (List.not_mem_nil c)
  | cons a t ih =>
      intro hmem hne
      rcases t with _ | ⟨b, t2⟩
      · simpa only [collapseUnderscores] using hmem
      · show c ∈ (if a = '_' && b = '_' then collapseUnderscores (b :: t2)
          else a :: collapseUnderscores (b :: t2))
        by_cases hab : (a = '_' && b = '_') = true
        · rw [if_pos hab]
          rcases List.mem_cons.mp hmem with rfl | ht
          · simp only [Bool.and_eq_true, decide_eq_true_eq] at hab
            exact absurd hab.1 hne
          · exact ih ht hne
        · rw [if_neg hab]
          rcases List.mem_cons.mp hmem with rfl | ht
          · exact List.mem_cons_self _ _
          · exact List.mem_cons_of_mem _ (ih ht hne)

theorem mem_stripUnderscores {c : Char} {l : List Char}
    (hmem : c ∈ l) (hne : c ≠ '_') : c ∈ stripUnderscores l := by
  unfold stripUnderscores
  have hp : (decide (c = '_')) = false := by simpa using hne
  rw [List.mem_reverse]
  refine mem_dropWhile_of_mem ?_ hp
  rw [List.mem_reverse]
  exact mem_dropWhile_of_mem hmem hp

/-! ## Lemmas about the string primitives -/

theorem dropWhile_idem {α : Type} {p : α → Bool} :
    ∀ l : List α, List.dropWhile p (List.dropWhile p l) = List.dropWhile p l := by
  intro l
  induction l with
  | nil => rfl
  | cons a t ih =>
      by_cases ha : p a = true
      · rw [List.dropWhile_cons, if_pos ha]
        exact ih
      · rw [List.dropWhile_cons, if_neg ha, List.dropWhile_cons, if_neg ha]

theorem head_not_of_dropWhile {α : Type} {p : α → Bool} :
    ∀ {l : List α} {c : α}, (List.dropWhile p l).head? = some c → p c = false := by
  intro l
  induction l with
  | nil => intro c h; simp [List.dropWhile] at h
  | cons a t ih =>
      intro c h
      by_cases ha : p a = true
      · rw [List.dropWhile_cons, if_pos ha] at h
        exact ih h
      · rw [List.dropWhile_cons, if_neg ha] at h
        have hc : a = c := by simpa using h
        rw [← hc]
        simpa using ha

theorem dropWhile_eq_self_of_head {α : Type} {p : α → Bool} :
    ∀ {l : List α}, (∀ c, l.head? = some c → p c = false) →
      List.dropWhile p l = l := by
  intro l h
  cases l with
  | nil => rfl
  | cons a t =>
      rw [List.dropWhile_cons, if_neg]
      rw [h a rfl]
      simp

theorem pyStrip_eq_self_iff {l : List Char} :
    pyStrip l = l ↔
      (List.dropWhile isPySpace l = l ∧
        List.dropWhile isPySpace l.reverse = l.reverse) := by
  constructor
  · intro h
    have s2 : List.Sublist (List.dropWhile isPySpace l) l := List.dropWhile_sublist _
    have s1 : List.Sublist (pyStrip l) (List.dropWhile isPySpace l) := by
      unfold pyStrip
      have hx : List.Sublist
          (List.dropWhile isPySpace (List.dropWhile isPySpace l).reverse)
          (List.dropWhile isPySpace l).reverse := List.dropWhile_sublist _
      have hy := List.reverse_sublist.mpr hx
      simpa using hy
    have hlen : (List.dropWhile isPySpace l).length = l.length := by
      have g1 := s1.length_le
      have g2 := s2.length_le
      rw [h] at g1
      omega
    have hd : List.dropWhile isPySpace l = l := s2.eq_of_length hlen
    refine ⟨hd, ?_⟩
    have h2 : (List.dropWhile isPySpace l.reverse).reverse = l := by
      unfold pyStrip at h
      rw [hd] at h
      exact h
    rw [List.reverse_eq_iff] at h2
    rw [h2]
  · rintro ⟨h1, h2⟩
    unfold pyStrip
    rw [h1, h2, List.reverse_reverse]

theorem pyStrip_idem (l : List Char) : pyStrip (pyStrip l) = pyStrip l := by
  apply pyStrip_eq_self_iff.mpr
  constructor
  · apply dropWhile_eq_self_of_head
    intro c hc
    unfold pyStrip at hc
    rw [List.head?_reverse] at hc
    rcases @List.dropWhile_suffix Char (List.dropWhile isPySpace l).reverse isPySpace
      with ⟨u, hu⟩
    have hAl : ((List.dropWhile isPySpace l).reverse).getLast? = some c := by
      rw [← hu, List.getLast?_append, hc]
      rfl
    rw [List.getLast?_reverse] at hAl
    exact head_not_of_dropWhile hAl
  · unfold pyStrip
    rw [List.reverse_reverse]
    exact dropWhile_idem _

theorem mem_pyStrip {c : Char} {l : List Char} (h : c ∈ pyStrip l) : c ∈ l := by
  unfold pyStrip at h
  rw [List.mem_reverse] at h
  have h2 := List.Sublist.mem h (List.dropWhile_sublist _)
  rw [List.mem_reverse] at h2
  exact List.Sublist.mem h2 (List.dropWhile_sublist _)

theorem removeTagsAux_no_lt : ∀ l : List Char, '<' ∉ l → removeTagsAux l none = l := by
  intro l
  induction l with
  | nil => intro _; rfl
  | cons a t ih =>
      intro h
      have ha : ¬a = '<' := fun he => h (he ▸ List.mem_cons_self a t)
      simp only [removeTagsAux, if_neg ha]
      exact congrArg (a :: ·) (ih (fun hm => h (List.mem_cons_of_mem a hm)))

theorem removeTags_no_lt {l : List Char} (h : '<' ∉ l) : removeTags l = l :=
  removeTagsAux_no_lt l h

theorem mapNbsp_no_lt {l : List Char} (h : '<' ∉ l) : '<' ∉ mapNbsp l := by
  intro hm
  rcases List.mem_map.mp hm with ⟨c, hc, he⟩
  by_cases hx : c = '\xa0'
  · rw [if_pos hx] at he
    exact absurd he (by decide)
  · rw [if_neg hx] at he
    exact h (he ▸ hc)

theorem mapNbsp_eq_self_of_no_space :
    ∀ l : List Char, (∀ c ∈ mapNbsp l, c ≠ ' ') → mapNbsp l = l := by
  intro l
  induction l with
  | nil => intro _; rfl
  | cons a t ih =>
      intro h
      show (if a = '\xa0' then ' ' else a) :: mapNbsp t = a :: t
      have hhead : (if a = '\xa0' then ' ' else a) ≠ ' ' :=
        h _ (List.mem_map.mpr ⟨a, List.mem_cons_self a t, rfl⟩)
      have ha : a ≠ '\xa0' := by
        intro he
        rw [if_pos he] at hhead
        exact hhead rfl
      rw [if_neg ha]
      exact congrArg (a :: ·)
        (ih (fun c hc => h c (List.mem_cons_of_mem _ hc)))

theorem mapNbsp_ne_webvtt {l : List Char} (h : l ≠ webvttChars) :
    mapNbsp l ≠ webvttChars := by
  intro he
  apply h
  have hns : ∀ c ∈ mapNbsp l, c ≠ ' ' := by
    rw [he]
    intro c hc hsp
    rw [hsp] at hc
    exact absurd hc (by decide)
  rw [← mapNbsp_eq_self_of_no_space l hns]
  exact he

theorem nbspEq (a t : Char) (h1 : t ≠ ' ') (h2 : t ≠ '\xa0') :
    decide ((if a = '\xa0' then ' ' else a) = t) = decide (a = t) := by
  by_cases ha : a = '\xa0'
  · rw [if_pos ha, ha]
    rw [decide_eq_false (fun he => h1 he.symm), decide_eq_false (fun he => h2 he.symm)]
  · rw [if_neg ha]

theorem startsArrow_mapNbsp : ∀ l : List Char, startsArrow (mapNbsp l) = startsArrow l := by
  intro l
  rcases l with _ | ⟨a, _ | ⟨b, _ | ⟨c, t⟩⟩⟩
  · rfl
  · rfl
  · rfl
  · show startsArrow ((if a = '\xa0' then ' ' else a) :: (if b = '\xa0' then ' ' else b) ::
      (if c = '\xa0' then ' ' else c) :: mapNbsp t) = startsArrow (a :: b :: c :: t)
    simp only [startsArrow]
    rw [nbspEq a '-' (by decide) (by decide), nbspEq b '-' (by decide) (by decide),
      nbspEq c '>' (by decide) (by decide)]

theorem hasArrow_mapNbsp : ∀ l : List Char, hasArrow (mapNbsp l) = hasArrow l := by
  intro l
  induction l with
  | nil => rfl
  | cons a t ih =>
      have h1 : startsArrow ((if a = '\xa0' then ' ' else a) :: mapNbsp t) =
          startsArrow (a :: t) := startsArrow_mapNbsp (a :: t)
      show hasArrow ((if a = '\xa0' then ' ' else a) :: mapNbsp t) = hasArrow (a :: t)
      simp only [hasArrow]
      rw [h1, ih]

theorem dropWhile_mapNbsp : ∀ {l : List Char}, List.dropWhile isPySpace l = l →
    List.dropWhile isPySpace (mapNbsp l) = mapNbsp l := by
  intro l h
  cases l with
  | nil => rfl
  | cons a t =>
      have hpa : isPySpace a = false := by
        by_contra hcon
        have hpa2 : isPySpace a = true := by simpa using hcon
        rw [List.dropWhile_cons, if_pos hpa2] at h
        have hsub := (@List.dropWhile_sublist Char t isPySpace).length_le
        have hlen := congrArg List.length h
        simp only [List.length_cons] at hlen
        omega
      have ha : a ≠ '\xa0' := by
        intro he
        rw [he] at hpa
        exact absurd hpa (by decide)
      have hm : mapNbsp (a :: t) = a :: mapNbsp t := by
        show (if a = '\xa0' then ' ' else a) :: mapNbsp t = a :: mapNbsp t
        rw [if_neg ha]
      rw [hm, List.dropWhile_cons, if_neg (by simp [hpa])]

theorem pyStrip_mapNbsp {l : List Char} (h : pyStrip l = l) :
    pyStrip (mapNbsp l) = mapNbsp l := by
  rcases pyStrip_eq_self_iff.mp h with ⟨h1, h2⟩
  apply pyStrip_eq_self_iff.mpr
  refine ⟨dropWhile_mapNbsp h1, ?_⟩
  show List.dropWhile isPySpace (List.map _ l).reverse = (List.map _ l).reverse
  rw [← List.map_reverse]
  exact dropWhile_mapNbsp h2

/-! ## Lemmas about the normalizer passes -/

theorem vtt_eq_join (s : String) :
    vtt_to_plaintext s = String.mk (joinNL (normalizeLines s)) := by
  unfold vtt_to_plaintext normalizeLines
  by_cases h : (processedLines (splitLines s.data)).isEmpty = true
  · rw [if_pos h, List.isEmpty_iff.mp h]
    rfl
  · rw [if_neg h]

set_option maxHeartbeats 1000000 in
theorem splitLinesAux_chars :
    ∀ (cs acc l : List Char), l ∈ splitLinesAux cs acc → ∀ c ∈ l, c ∈ cs ∨ c ∈ acc := by
  intro cs acc
  induction cs, acc using splitLinesAux.induct with
  | case1 acc hacc =>
      intro l hl
      simp only [splitLinesAux, if_pos hacc] at hl
      exact absurd hl (List.not_mem_nil l)
  | case2 acc hacc =>
      intro l hl c hc
      simp only [splitLinesAux, if_neg hacc] at hl
      have : l = acc.reverse := by simpa using hl
      rw [this] at hc
      exact Or.inr (List.mem_reverse.mp hc)
  | case3 rest acc ih =>
      intro l hl c hc
      simp only [splitLinesAux] at hl
      rcases List.mem_cons.mp hl with rfl | hm
      · exact Or.inr (List.mem_reverse.mp hc)
      · rcases ih l hm c hc with h | h
        · exact Or.inl (List.mem_cons_of_mem _ (List.mem_cons_of_mem _ h))
        · exact absurd h (List.not_mem_nil c)
  | case4 c0 rest acc hne hterm ih =>
      intro l hl c hc
      simp only [splitLinesAux, if_pos hterm] at hl
      rcases List.mem_cons.mp hl with rfl | hm
      · exact Or.inr (List.mem_reverse.mp hc)
      · rcases ih l hm c hc with h | h
        · exact Or.inl (List.mem_cons_of_mem _ h)
        · exact absurd h (List.not_mem_nil c)
  | case5 c0 rest acc hne hterm ih =>
      intro l hl c hc
      simp only [splitLinesAux, if_neg hterm] at hl
      rcases ih l hl c hc with h | h
      · exact Or.inl (List.mem_cons_of_mem _ h)
      · rcases List.mem_cons.mp h with rfl | hm
        · exact Or.inl (List.mem_cons_self _ _)
        · exact Or.inr hm

theorem splitLines_chars {cs l : List Char} (hl : l ∈ splitLines cs) :
    ∀ c ∈ l, c ∈ cs := by
  intro c hc
  rcases splitLinesAux_chars cs [] l hl c hc with h | h
  · exact h
  · exact absurd h (List.not_mem_nil c)

theorem mem_dedupAux :
    ∀ (ls : List (List Char)) (last : Option (List Char)) (l : List Char),
      l ∈ dedupAux last ls → l ∈ ls := by
  intro ls
  induction ls with
  | nil => intro last l h; simp [dedupAux] at h
  | cons a rest ih =>
      intro last l h
      simp only [dedupAux] at h
      split_ifs at h with h1 h2
      · rcases List.mem_cons.mp h with rfl | hm
        · exact List.mem_cons_self _ _
        · exact List.mem_cons_of_mem _ (ih _ _ hm)
      · rcases List.mem_cons.mp h with rfl | hm
        · exact List.mem_cons_self _ _
        · exact List.mem_cons_of_mem _ (ih _ _ hm)
      · exact List.mem_cons_of_mem _ (ih _ _ h)

theorem mem_processedLines {raw : List (List Char)} {l : List Char}
    (h : l ∈ processedLines raw) :
    ∃ line ∈ raw, pyStrip line ≠ webvttChars ∧ hasArrow (pyStrip line) = false ∧
      pyStrip line ≠ [] ∧ l = mapNbsp (removeTags (pyStrip line)) := by
  unfold processedLines at h
  rcases List.mem_filterMap.mp h with ⟨line, hline, hf⟩
  refine ⟨line, hline, ?_⟩
  simp only [] at hf
  split_ifs at hf with h1 h2 h3 h4
  all_goals simp at hf
  have hnil : pyStrip line ≠ [] := by
    intro hn
    apply h4
    rw [hn]
    rfl
  exact ⟨h1, by simpa using h2, hnil, hf.symm⟩

theorem dedupAux_head_strip :
    ∀ (ls : List (List Char)) (m h : List Char),
      (dedupAux (some m) ls).head? = some h → pyStrip h ≠ [] → pyStrip h ≠ m := by
  intro ls
  induction ls with
  | nil => intro m h hh; simp [dedupAux] at hh
  | cons a rest ih =>
      intro m h hh hnb
      simp only [dedupAux] at hh
      split_ifs at hh with h1 h2
      · have ha : a = h := by simpa using hh
        subst ha
        simp only [Bool.and_eq_true, Bool.not_eq_true', decide_eq_true_eq] at h1
        intro he
        exact h1.2 (congrArg some he)
      · have ha : a = h := by simpa using hh
        subst ha
        simp only [Bool.and_eq_true, decide_eq_true_eq, List.isEmpty_eq_true] at h2
        exact absurd h2.1 hnb
      · exact ih m h hh hnb

theorem dedupAux_chain :
    ∀ (ls : List (List Char)) (last : Option (List Char)),
      List.Chain' (fun a b => pyStrip a ≠ [] → pyStrip b ≠ [] → pyStrip a ≠ pyStrip b)
        (dedupAux last ls) := by
  intro ls
  induction ls with
  | nil => intro last; simp [dedupAux]
  | cons a rest ih =>
      intro last
      simp only [dedupAux]
      split_ifs with h1 h2
      · rw [List.chain'_cons']
        refine ⟨?_, ih _⟩
        intro y hy _ hyb
        exact fun he =>
          dedupAux_head_strip rest (pyStrip a) y hy hyb he.symm
      · rw [List.chain'_cons']
        refine ⟨?_, ih _⟩
        intro y _ hna _
        simp only [Bool.and_eq_true, decide_eq_true_eq, List.isEmpty_eq_true] at h2
        exact absurd h2.1 hna
      · exact ih _

/-- A line that strips to blank is discarded by the first pass. -/
theorem processedLines_blank {bl : List Char} (h : pyStrip bl = []) :
    ∀ ls : List (List Char), processedLines (bl :: ls) = processedLines ls := by
  intro ls
  unfold processedLines
  rw [List.filterMap_cons]
  simp [h, webvttChars, hasArrow]

theorem processedLines_append (a b : List (List Char)) :
    processedLines (a ++ b) = processedLines a ++ processedLines b := by
  unfold processedLines
  exact List.filterMap_append a b _

theorem mapNbsp_id {l : List Char} (h : '\xa0' ∉ l) : mapNbsp l = l := by
  unfold mapNbsp
  conv_rhs => rw [← List.map_id l]
  apply List.map_congr_left
  intro c hc
  have hcne : c ≠ '\xa0' := fun he => h (he ▸ hc)
  show (if c = '\xa0' then ' ' else c) = id c
  rw [if_neg hcne]
  rfl

theorem processedLines_id :
    ∀ ls : List (List Char), (∀ l ∈ ls, normalLine l = true) → processedLines ls = ls := by
  intro ls h
  unfold processedLines
  apply filterMap_eq_self_of
  intro l hl
  have hn := h l hl
  unfold normalLine at hn
  simp only [Bool.and_eq_true] at hn
  obtain ⟨⟨⟨⟨⟨⟨hA, hB⟩, hC⟩, hD⟩, hE⟩, hF⟩, hG⟩ := hn
  have hstrip : pyStrip l = l := by simpa using hB
  have hweb : ¬(l = webvttChars) := by simpa using hC
  have harr : hasArrow l = false := by simpa using hD
  have htags : removeTags l = l := by simpa using hF
  have hemp : l.isEmpty = false := by simpa using hA
  have hcond : (!l.isEmpty && l.all Char.isDigit && !l.any Char.isAlpha) = false := by
    have hE2 : (l.all Char.isDigit && !l.any Char.isAlpha) = false := by
      cases hx : (l.all Char.isDigit && !l.any Char.isAlpha)
      · rfl
      · rw [hx] at hE
        exact absurd hE (by decide)
    rcases Bool.and_eq_false_iff.mp hE2 with hx | hx
    · simp [hx]
    · simp [hx]
  have hnbsp : '\xa0' ∉ l := by
    intro hmem
    have := List.all_eq_true.mp hG '\xa0' hmem
    simp at this
  simp only []
  rw [hstrip]
  rw [if_neg hweb, harr]
  simp only [Bool.false_eq_true, if_false]
  rw [hcond]
  simp only [Bool.false_eq_true, if_false]
  rw [hemp]
  simp only [Bool.false_eq_true, if_false]
  rw [htags, mapNbsp_id hnbsp]

theorem dedupAux_id :
    ∀ ls : List (List Char), (∀ l ∈ ls, pyStrip l = l ∧ l ≠ []) →
      List.Chain' (fun a b => a ≠ b) ls →
      (dedupAux none ls = ls ∧
        ∀ m : List Char, (∀ h0, ls.head? = some h0 → h0 ≠ m) →
          dedupAux (some m) ls = ls) := by
  intro ls
  induction ls with
  | nil => intro _ _; exact ⟨rfl, fun _ _ => rfl⟩
  | cons a rest ih =>
      intro hall hchain
      have ha := hall a (List.mem_cons_self a rest)
      have hrest : ∀ l ∈ rest, pyStrip l = l ∧ l ≠ [] :=
        fun l hl => hall l (List.mem_cons_of_mem _ hl)
      have hchain2 := (List.chain'_cons'.mp hchain).2
      have hhead := (List.chain'_cons'.mp hchain).1
      obtain ⟨ihnone, ihsome⟩ := ih hrest hchain2
      have hnext : ∀ h0, rest.head? = some h0 → h0 ≠ a :=
        fun h0 hh0 => (hhead h0 (Option.mem_def.mpr hh0)).symm
      constructor
      · simp only [dedupAux]
        split_ifs with h1 h2
      -- branch: kept as non-blank
        · rw [ha.1]
          exact congrArg (a :: ·) (ihsome a hnext)
        · exfalso
          simp only [Bool.and_eq_true, List.isEmpty_eq_true] at h2
          exact ha.2 (ha.1 ▸ h2.1)
        · exact absurd (by rw [ha.1]; simp [ha.2]) h1
      · intro m hm
        simp only [dedupAux]
        split_ifs with h1 h2
        · rw [ha.1]
          exact congrArg (a :: ·) (ihsome a hnext)
        · exfalso
          simp only [Bool.and_eq_true, List.isEmpty_eq_true] at h2
          exact ha.2 (ha.1 ▸ h2.1)
        · exact absurd (by rw [ha.1]; simp [ha.2, hm a rfl]) h1

/-! ## Claims -/

/-- C1: on the raw VTT sample of spec §8 item 6 (header, three cues with
indices and time ranges, text lines `Hello world`, `Hello world`,
`<i>Goodbye</i>`), `vtt_to_plaintext` returns exactly
`"Hello world\nGoodbye"`. -/
theorem claim_C1 :
    vtt_to_plaintext
      "WEBVTT\n\n1\n00:00:00.000 --> 00:00:02.000\nHello world\n\n2\n00:00:02.000 --> 00:00:04.000\nHello world\n\n3\n00:00:04.000 --> 00:00:06.000\n<i>Goodbye</i>"
      = "Hello world\nGoodbye" := by decide

/-- C8: `sanitize_filename` implements the spec's pipeline — for every
input and `max_length` it agrees with `sanitize_spec`, the pipeline
written exactly as the spec words it (whitespace → `_`, non-alphanumeric
non-`-`/`_` → `_`, collapse `_` runs, strip outer `_`, truncate) — and
on the spec's example `sanitize("My Video!!  Title", 60)` it returns
`"My_Video_Title"`. -/
theorem claim_C8 :
    (∀ (s : String) (n : Nat), sanitize_filename s n = sanitize_spec s n) ∧
    sanitize_filename "My Video!!  Title" 60 = "My_Video_Title" := by
  refine ⟨?_, by decide⟩
  intro s n
  unfold sanitize_filename sanitize_spec
  have h : ((s.data.map (fun c => if c = ' ' then '_' else c)).map
      (fun c => if c.isAlphanum || c = '-' || c = '_' then c else '_')) =
      ((s.data.map (fun c => if isPySpace c then '_' else c)).map
      (fun c => if c.isAlphanum || c = '-' || c = '_' then c else '_')) := by
    rw [List.map_map, List.map_map]
    exact List.map_congr_left (fun c _ => sanitizeChar_eq c)
  rw [h]

/-- C9 counterexample: the claim says the sanitizer yields a non-empty
result for every input, including all-punctuation strings; the code
returns the empty string on `"!!"`. -/
theorem claim_C9_cex : sanitize_filename "!!" 60 = "" := by decide

/-- C9 (amended): the sanitizer returns a non-empty result whenever the
input contains at least one character it preserves (an alphanumeric
character or a hyphen); inputs that are empty or consist only of
punctuation/whitespace/underscores yield the empty string. -/
theorem claim_C9 :
    ∀ s : String, (∃ c ∈ s.data, c.isAlphanum = true ∨ c = '-') →
      sanitize_filename s 60 ≠ "" := by
  rintro s ⟨c, hc, hprop⟩ hcontra
  have hspace : c ≠ ' ' := by
    rcases hprop with h | h
    · intro he; rw [he] at h; exact absurd h (by decide)
    · rw [h]; decide
  have hus : c ≠ '_' := by
    rcases hprop with h | h
    · intro he; rw [he] at h; exact absurd h (by decide)
    · rw [h]; decide
  have h1 : c ∈ s.data.map (fun c => if c = ' ' then '_' else c) :=
    List.mem_map.mpr ⟨c, hc, if_neg hspace⟩
  have hkeep : (if c.isAlphanum || c = '-' || c = '_' then c else '_') = c := by
    apply if_pos
    rcases hprop with h | h
    · simp [h]
    · simp [h]
  have h2 : c ∈ (s.data.map (fun c => if c = ' ' then '_' else c)).map
      (fun c => if c.isAlphanum || c = '-' || c = '_' then c else '_') :=
    List.mem_map.mpr ⟨c, h1, hkeep⟩
  have h3 := mem_stripUnderscores (mem_collapseUnderscores h2 hus) hus
  have h4 : (stripUnderscores (collapseUnderscores
      ((s.data.map (fun c => if c = ' ' then '_' else c)).map
        (fun c => if c.isAlphanum || c = '-' || c = '_' then c else '_')))).take 60 = [] := by
    have := congrArg String.data hcontra
    simpa [sanitize_filename] using this
  rcases List.take_eq_nil_iff.mp h4 with h | h
  · exact absurd h (by decide)
  · rw [h] at h3; exact absurd h3 (List.not_mem_nil c)

/-- Witness for C9 (amended): a concrete input with an alphanumeric
character sanitizes to a non-empty result. -/
theorem claim_C9_w : sanitize_filename "a" 60 ≠ "" :=
  claim_C9 "a" ⟨'a', by decide, Or.inl (by decide)⟩

/-- C5: evaluation at the failing input.  With the engine's structured
result absent and both candidate caption files on disk, the fallback
directory probe (transcriber.py line 217) iterates `['ro', 'en']`, so
the call reports `language_detected = "ro"` — while the claim (and the
spec's preference policy, matching the en-first structured loop at line
203 and the comment `Try English first, then Romanian` at line 181)
requires `"en"`. -/
theorem claim_C5 :
    (get_youtube_transcript_text
      ⟨"t", "b", [vttPath "t" "b" "en", vttPath "t" "b" "ro"], false, none, false, ""⟩).1.language_detected
      = some "ro" := by decide

/-- C2 counterexample: the claim promises the output never contains a
line trimmed-equal to the header token; but the tag-cleaning pass can
assemble `WEBVTT` out of a surviving line's characters — on the
single-line input `WEB<a>VTT` the output is exactly `WEBVTT`. -/
theorem claim_C2_cex : vtt_to_plaintext "WEB<a>VTT" = "WEBVTT" := by decide

/-- C2 (amended): the output is the newline-join of `normalizeLines`;
for every input containing no `<` character, no output line is
trimmed-equal to `WEBVTT`, contains `-->`, or contains a tag span
(`removeTags` fixes it); and for every input whatsoever, no two
consecutive non-blank output lines are equal after trimming. -/
theorem claim_C2 :
    (∀ s : String, vtt_to_plaintext s = String.mk (joinNL (normalizeLines s))) ∧
    (∀ s : String, '<' ∉ s.data →
      ∀ l ∈ normalizeLines s,
        pyStrip l ≠ webvttChars ∧ hasArrow l = false ∧ removeTags l = l) ∧
    (∀ s : String,
      List.Chain' (fun a b => pyStrip a ≠ [] → pyStrip b ≠ [] → pyStrip a ≠ pyStrip b)
        (normalizeLines s)) := by
  refine ⟨vtt_eq_join, ?_, fun s => dedupAux_chain _ _⟩
  intro s hlt l hl
  have hl2 : l ∈ processedLines (splitLines s.data) := mem_dedupAux _ _ _ hl
  rcases mem_processedLines hl2 with ⟨line, hline, hweb, harrow, hnil, heq⟩
  have hlt_line : '<' ∉ line := fun hm => hlt (splitLines_chars hline '<' hm)
  have hlt_st : '<' ∉ pyStrip line := fun hm => hlt_line (mem_pyStrip hm)
  have hrt : removeTags (pyStrip line) = pyStrip line := removeTags_no_lt hlt_st
  rw [hrt] at heq
  have hstrip_l : pyStrip l = l := by
    rw [heq]
    exact pyStrip_mapNbsp (pyStrip_idem line)
  refine ⟨?_, ?_, ?_⟩
  · rw [hstrip_l, heq]
    exact mapNbsp_ne_webvtt hweb
  · rw [heq, hasArrow_mapNbsp]
    exact harrow
  · rw [heq]
    exact removeTags_no_lt (mapNbsp_no_lt hlt_st)

/-- Witness for C2 (amended): on `"WEBVTT\nhi"` (no `<` in the input)
the surviving output line `hi` is clean. -/
theorem claim_C2_w :
    pyStrip ['h', 'i'] ≠ webvttChars ∧ hasArrow ['h', 'i'] = false ∧
      removeTags ['h', 'i'] = ['h', 'i'] :=
  claim_C2.2.1 "WEBVTT\nhi" (by decide) ['h', 'i'] (by decide)

/-- C3 counterexample: the claim says blank lines are kept once in the
output and reset the duplicate memory, so a line repeating an earlier
line across a blank separator is kept.  On `"a\n\na"` the code instead
drops the blank input line in the first pass and then discards the
second `a` as a consecutive duplicate: the output is `"a"`, not
`"a\n\na"`. -/
theorem claim_C3_cex :
    vtt_to_plaintext "a\n\na" = "a" ∧ vtt_to_plaintext "a\n\na" ≠ "a\n\na" := by decide

/-- C3 (amended): input lines that are blank after stripping are
removed by the first pass (they are not kept and cannot reset the
memory); within the duplicate-collapsing pass, a line that is blank
after tag-cleaning is kept once while the memory is set and resets it,
a non-blank line equal (on stripped content) to the memory is dropped,
and a non-blank line different from the memory is kept with its
post-cleaning spacing. -/
theorem claim_C3 :
    (∀ (pre post : List (List Char)) (bl : List Char), pyStrip bl = [] →
      processedLines (pre ++ bl :: post) = processedLines (pre ++ post)) ∧
    (∀ (m bl : List Char) (rest : List (List Char)), pyStrip bl = [] →
      dedupAux (some m) (bl :: rest) = bl :: dedupAux none rest) ∧
    (∀ (bl : List Char) (rest : List (List Char)), pyStrip bl = [] →
      dedupAux none (bl :: rest) = dedupAux none rest) ∧
    (∀ (l : List Char) (rest : List (List Char)), pyStrip l ≠ [] →
      dedupAux (some (pyStrip l)) (l :: rest) = dedupAux (some (pyStrip l)) rest) ∧
    (∀ (m l : List Char) (rest : List (List Char)), pyStrip l ≠ [] → pyStrip l ≠ m →
      dedupAux (some m) (l :: rest) = l :: dedupAux (some (pyStrip l)) rest) := by
  refine ⟨?_, ?_, ?_, ?_, ?_⟩
  · intro pre post bl h
    rw [processedLines_append, processedLines_blank h, ← processedLines_append]
  · intro m bl rest h
    simp only [dedupAux]
    split_ifs with h1 h2
    · rw [h] at h1
      simp at h1
    · rfl
    · exact absurd (by rw [h]; simp) h2
  · intro bl rest h
    simp only [dedupAux]
    split_ifs with h1 h2
    · rw [h] at h1
      simp at h1
    · simp at h2
    · rfl
  · intro l rest h
    simp only [dedupAux]
    split_ifs with h1 h2
    · simp at h1
    · simp only [Bool.and_eq_true, List.isEmpty_eq_true] at h2
      exact absurd h2.1 h
    · rfl
  · intro m l rest h hne
    have hic : (pyStrip l).isEmpty = false := by
      cases hic2 : (pyStrip l).isEmpty
      · rfl
      · exact absurd (List.isEmpty_iff.mp hic2) h
    simp only [dedupAux]
    split_ifs with h1 h2
    · rfl
    · simp only [Bool.and_eq_true, List.isEmpty_eq_true] at h2
      exact absurd h2.1 h
    · exact absurd (by simp [hic, hne]) h1

/-- Witness for C3 (amended): a non-blank line differing from the
memory is kept and updates the memory. -/
theorem claim_C3_w :
    dedupAux (some ['b']) [['a']] = ['a'] :: dedupAux (some (pyStrip ['a'])) [] :=
  claim_C3.2.2.2.2 ['b'] ['a'] [] (by decide) (by decide)

/-- C4 counterexample: the claim asserts idempotence on every output;
but `vtt_to_plaintext "<i> hello"` yields `" hello"` (tag removal can
leave leading whitespace), and re-normalizing `" hello"` strips it to
`"hello"` — so there is an output that a second pass changes. -/
theorem claim_C4_cex :
    vtt_to_plaintext "<i> hello" = " hello" ∧ vtt_to_plaintext " hello" ≠ " hello" := by
  decide

/-- C4 (amended): the normalizer is the identity — hence idempotent —
exactly on strings in canonical normalized-line form: a newline-join of
lines that are non-blank, stripped, free of tags/NBSP/terminators, not
header/time-range/cue-index text, with no two consecutive lines equal.
Outputs with post-cleaning spacing, blank (tag-only) lines, or
cleaning-created header/cue text are changed again by a second pass. -/
theorem claim_C4 :
    ∀ s : String, (∀ l ∈ splitLines s.data, normalLine l = true) →
      List.Chain' (fun a b => a ≠ b) (splitLines s.data) →
      joinNL (splitLines s.data) = s.data →
      vtt_to_plaintext s = s := by
  intro s hlines hchain hjoin
  have h1 : processedLines (splitLines s.data) = splitLines s.data :=
    processedLines_id _ hlines
  have hprops : ∀ l ∈ splitLines s.data, pyStrip l = l ∧ l ≠ [] := by
    intro l hl
    have hn := hlines l hl
    unfold normalLine at hn
    simp only [Bool.and_eq_true] at hn
    obtain ⟨⟨⟨⟨⟨⟨hA, hB⟩, _⟩, _⟩, _⟩, _⟩, _⟩ := hn
    refine ⟨by simpa using hB, ?_⟩
    intro he
    rw [he] at hA
    exact absurd hA (by decide)
  have h2 : dedupAux none (splitLines s.data) = splitLines s.data :=
    (dedupAux_id _ hprops hchain).1
  rw [vtt_eq_join]
  unfold normalizeLines
  rw [h1, h2, hjoin]

/-- Witness for C4 (amended): a two-line canonical string is a fixed
point of the normalizer. -/
theorem claim_C4_w : vtt_to_plaintext "hi\nyo" = "hi\nyo" :=
  claim_C4 "hi\nyo" (by decide)
    (by
      have hsl : splitLines "hi\nyo".data = [['h', 'i'], ['y', 'o']] := by decide
      rw [hsl]
      exact List.chain'_cons.mpr ⟨by decide, List.chain'_singleton _⟩)
    (by decide)

/-- C7: no phantom success for audio extraction — whenever the expected
output file `directory/base_name.format` is not on disk after the
download step, the call reports an error with both paths null; and any
returned `audio_server_path` points to a file that is on disk. -/
theorem claim_C7 :
    ∀ (env : AudioEnv) (fmt : String),
      (expectedAudioPath env fmt ∉ env.diskAfterDownload →
        (extract_audio_from_video env fmt).audio_server_path = none ∧
        (extract_audio_from_video env fmt).audio_relative_path = none ∧
        (extract_audio_from_video env fmt).error ≠ none) ∧
      (∀ p, (extract_audio_from_video env fmt).audio_server_path = some p →
        p ∈ env.diskAfterDownload) := by
  intro env fmt
  unfold extract_audio_from_video
  split_ifs with h1 h2 h3 h4 h5
  · exact ⟨fun _ => ⟨rfl, rfl, by simp⟩, fun p hp => by simp at hp⟩
  · exact ⟨fun _ => ⟨rfl, rfl, by simp⟩, fun p hp => by simp at hp⟩
  · exact ⟨fun _ => ⟨rfl, rfl, by simp⟩, fun p hp => by simp at hp⟩
  · exact ⟨fun _ => ⟨rfl, rfl, by simp⟩, fun p hp => by simp at hp⟩
  · constructor
    · intro hnot
      exact absurd (List.elem_iff.mp h5) hnot
    · intro p hp
      simp only [Option.some.injEq] at hp
      rw [← hp]
      exact List.elem_iff.mp h5
  · exact ⟨fun _ => ⟨rfl, rfl, by simp⟩, fun p hp => by simp at hp⟩

/-- Witness for C7: with an empty disk the expected file is absent, and
the call indeed fails with null paths. -/
theorem claim_C7_w :
    (extract_audio_from_video ⟨true, false, "t", "ts", false, 0, []⟩ "mp3").audio_server_path = none ∧
    (extract_audio_from_video ⟨true, false, "t", "ts", false, 0, []⟩ "mp3").audio_relative_path = none ∧
    (extract_audio_from_video ⟨true, false, "t", "ts", false, 0, []⟩ "mp3").error ≠ none :=
  (claim_C7 ⟨true, false, "t", "ts", false, 0, []⟩ "mp3").1 (by decide)

/-- In either scan, a language is only ever reported from the list it
iterates over. -/
theorem findSome_lang {α : Type} :
    ∀ (langs : List String) (f : String → Option (α × String)),
      (∀ lang ∈ langs, ∀ r, f lang = some r → r.2 = lang) →
      ∀ x, langs.findSome? f = some x → x.2 ∈ langs := by
  intro langs
  induction langs with
  | nil => intro f _ x hx; simp [List.findSome?] at hx
  | cons a t ih =>
      intro f hf x hx
      rw [List.findSome?_cons] at hx
      cases hfa : f a with
      | some r =>
          rw [hfa] at hx
          have hr : x = r := by simpa using hx.symm
          subst hr
          rw [hf a (List.mem_cons_self a t) x hfa]
          exact List.mem_cons_self a t
      | none =>
          rw [hfa] at hx
          exact List.mem_cons_of_mem a
            (ih f (fun lang hl => hf lang (List.mem_cons_of_mem a hl)) x hx)

/-- `locateTranscript` only ever reports `"en"` or `"ro"`. -/
theorem locateTranscript_lang :
    ∀ (env : TranscriptEnv) (p l : String),
      locateTranscript env = some (p, l) → l = "en" ∨ l = "ro" := by
  intro env p l h
  unfold locateTranscript at h
  have hstructured : ∀ (rs : List (String × Option String)) (x : String × String),
      structuredScan rs env.engineFiles = some x → x.2 = "en" ∨ x.2 = "ro" := by
    intro rs x hx
    have := findSome_lang ["en", "ro"]
      (fun lang =>
        match rs.lookup lang with
        | some (some fp) => if env.engineFiles.contains fp then some (fp, lang) else none
        | _ => none)
      (by
        intro lang _ r hr
        simp only [] at hr
        cases hlook : rs.lookup lang with
        | none => rw [hlook] at hr; simp at hr
        | some ofp =>
            cases ofp with
            | none => rw [hlook] at hr; simp at hr
            | some fp =>
                simp only [hlook] at hr
                by_cases hc : env.engineFiles.contains fp = true
                · rw [if_pos hc] at hr
                  have hfpr : (fp, lang) = r := by simpa using hr
                  rw [← hfpr]
                · rw [if_neg hc] at hr; simp at hr) x hx
    simpa using this
  have hfallback : ∀ x : String × String,
      fallbackScan env.engineFiles env.tempDir env.baseName = some x →
      x.2 = "ro" ∨ x.2 = "en" := by
    intro x hx
    have := findSome_lang ["ro", "en"]
      (fun lang =>
        if env.engineFiles.contains (vttPath env.tempDir env.baseName lang) then
          some (vttPath env.tempDir env.baseName lang, lang) else none)
      (by
        intro lang _ r hr
        simp only [] at hr
        by_cases hc : env.engineFiles.contains (vttPath env.tempDir env.baseName lang) = true
        · rw [if_pos hc] at hr
          have : (vttPath env.tempDir env.baseName lang, lang) = r := by simpa using hr
          rw [← this]
        · rw [if_neg hc] at hr; simp at hr) x hx
    simpa using this
  cases hrs : env.requested_subtitles with
  | none =>
      simp only [hrs] at h
      rcases hfallback (p, l) h with hro | hen
      · exact Or.inr hro
      · exact Or.inl hen
  | some rs =>
      simp only [hrs] at h
      cases hv : structuredScan rs env.engineFiles with
      | none =>
          simp only [hv] at h
          rcases hfallback (p, l) h with hro | hen
          · exact Or.inr hro
          · exact Or.inl hen
      | some r =>
          simp only [hv] at h
          have hr : r = (p, l) := by simpa using h
          rw [hr] at hv
          exact hstructured rs (p, l) hv

/-- C10: whenever `get_youtube_transcript_text` returns a transcript
(success), the accompanying `language_detected` is exactly `"en"` or
`"ro"` — both the structured-result lookup and the directory-scan
fallback only assign from that two-element set. -/
theorem claim_C10 :
    ∀ env : TranscriptEnv,
      (get_youtube_transcript_text env).1.transcript_text.isSome = true →
      ∃ l, (get_youtube_transcript_text env).1.language_detected = some l ∧
        (l = "en" ∨ l = "ro") := by
  intro env h
  unfold get_youtube_transcript_text at h ⊢
  by_cases henv : env.engineRaises = true
  · rw [if_pos henv] at h
    simp at h
  · rw [if_neg henv] at h ⊢
    cases hloc : locateTranscript env with
    | none =>
        rw [hloc] at h
        simp at h
    | some pl =>
        obtain ⟨p, l2⟩ := pl
        by_cases hrr : env.readRaises = true
        · rw [hloc] at h
          dsimp only at h
          rw [if_pos hrr] at h
          simp at h
        · dsimp only
          rw [if_neg hrr]
          exact ⟨l2, rfl, locateTranscript_lang env p l2 hloc⟩

/-- Witness for C10: a successful call (fallback finds the English
file) reports a language from the supported pair. -/
theorem claim_C10_w :
    ∃ l, (get_youtube_transcript_text
      ⟨"t", "b", [vttPath "t" "b" "en"], false, none, false, ""⟩).1.language_detected = some l ∧
      (l = "en" ∨ l = "ro") :=
  claim_C10 ⟨"t", "b", [vttPath "t" "b" "en"], false, none, false, ""⟩ (by decide)

/-- C6 counterexample: the claim says every caption file created on
disk during the call is deleted before it returns; when the engine
wrote both the `en` and the `ro` file and the structured result is
absent, the code deletes only the located (`ro`) file, and the `en`
file survives the call. -/
theorem claim_C6_cex :
    vttPath "t" "b" "en" ∈ (get_youtube_transcript_text
      ⟨"t", "b", [vttPath "t" "b" "en", vttPath "t" "b" "ro"], false, none, false, ""⟩).2 := by
  decide

/-- C6 (amended): the cleanup guarantee holds exactly for the located
transcript file — on every exit path after a file is located (success
and read failure alike) that file is deleted before the call returns —
while engine-written files that were not located (a second language's
file, or every file when the engine raises before a path is recorded)
are not deleted. -/
theorem claim_C6 :
    ∀ (env : TranscriptEnv) (p l : String),
      env.engineRaises = false → locateTranscript env = some (p, l) →
      p ∉ (get_youtube_transcript_text env).2 ∧
      ∀ g ∈ env.engineFiles, g ≠ p → g ∈ (get_youtube_transcript_text env).2 := by
  intro env p l hre hloc
  unfold get_youtube_transcript_text
  rw [hre, hloc]
  simp only [Bool.false_eq_true, if_false]
  cases hrr : env.readRaises with
  | true =>
      simp only [if_true]
      constructor
      · intro hmem
        have := (List.mem_filter.mp hmem).2
        simp at this
      · intro g hg hne
        exact List.mem_filter.mpr ⟨hg, by simpa using hne⟩
  | false =>
      simp only [Bool.false_eq_true, if_false]
      constructor
      · intro hmem
        have := (List.mem_filter.mp hmem).2
        simp at this
      · intro g hg hne
        exact List.mem_filter.mpr ⟨hg, by simpa using hne⟩

/-- Witness for C6 (amended): in the two-file scenario the located `ro`
file is deleted and the other engine-written file survives. -/
theorem claim_C6_w :
    vttPath "t" "b" "ro" ∉ (get_youtube_transcript_text
      ⟨"t", "b", [vttPath "t" "b" "en", vttPath "t" "b" "ro"], false, none, false, ""⟩).2 ∧
    ∀ g ∈ [vttPath "t" "b" "en", vttPath "t" "b" "ro"], g ≠ vttPath "t" "b" "ro" →
      g ∈ (get_youtube_transcript_text
        ⟨"t", "b", [vttPath "t" "b" "en", vttPath "t" "b" "ro"], false, none, false, ""⟩).2 :=
  claim_C6 ⟨"t", "b", [vttPath "t" "b" "en", vttPath "t" "b" "ro"], false, none, false, ""⟩
    (vttPath "t" "b" "ro") "ro" rfl (by decide)

end Transcriber
